import Mathlib

/-!
Verification development for the Compression-Tool repository.

The repository ships a React front end (src/frontend/src/App.js) that
validates file selections and talks to a compression backend, plus a
specification of the hybrid VQ-VAE + Huffman compression engine.  The
engine itself is not part of the checked-in sources, so its components
are modelled here from the specification text; the front-end logic is
embedded directly from App.js.
-/

namespace SmartCompress

/-- A selected file as the browser hands it to the App.js handlers: a
name, a MIME type string, and its byte content.  `size` (below) is the
byte length, as in the web File API. -/
structure JsFile where
  name : String
  type : String
  content : List Nat
deriving DecidableEq

/-- The `size` property of a web `File`: its length in bytes. -/
def JsFile.size (f : JsFile) : Nat := f.content.length

/-- The compression metrics held in the `compressionInfo` React state
after a successful upload (App.js `handleUpload`). -/
structure CompressionInfo where
  originalSize : ℚ
  compressedSize : ℚ
  ratio : ℚ
  spaceSaved : ℚ
deriving DecidableEq

/-- The React state of the App component (the `useState` hooks of
App.js, in declaration order). -/
structure AppState where
  file : Option JsFile
  compressedFile : Option JsFile
  message : String
  downloadUrl : String
  compressionInfo : Option CompressionInfo
  uploadProgress : Nat
  loading : Bool
  decompressing : Bool
  isDragging : Bool
  showDecompressSection : Bool
deriving DecidableEq

/-- Error message of `handleFileChange` when no file is given. -/
def msgNoFile : String := "❌ No file selected!"

/-- Error message of `handleFileChange` for an empty file. -/
def msgEmptyFile : String := "❌ The selected file is empty! Please upload a non-empty file."

/-- Error message of `handleFileChange` for a disallowed file type. -/
def msgUnsupportedType : String := "❌ Unsupported file type! Please upload a text, PDF, PNG, ZIP, JPG, or DOCX file."

/-- Error message of `handleCompressedFileChange` when no file is given. -/
def msgNoCompressedFile : String := "❌ No compressed file selected!"

/-- Error message of `handleCompressedFileChange` for a non-zip file. -/
def msgNotZip : String := "❌ Please select a .zip file!"

/-- The `allowedTypes` array of App.js `handleFileChange`. -/
def allowedTypes : List String :=
  ["text/plain", "application/pdf", "image/png", "application/zip", "image/jpeg",
   "application/vnd.openxmlformats-officedocument.wordprocessingml.document"]

/-- The `allowedExtensions` array of App.js `handleFileChange`. -/
def allowedExtensions : List String := [".txt", ".pdf", ".png", ".zip", ".jpg", ".docx"]

/-- Splitting a character list at a separator, keeping empty segments,
as JavaScript `String.prototype.split` does with a one-character
separator.  `acc` holds the current segment reversed. -/
def splitOnCharAux (sep : Char) : List Char → List Char → List (List Char)
  | [], acc => [acc.reverse]
  | c :: cs, acc =>
    if c = sep then acc.reverse :: splitOnCharAux sep cs []
    else splitOnCharAux sep cs (c :: acc)

/-- JavaScript `s.split(sep)` for a single-character separator. -/
def splitOnChar (sep : Char) (s : List Char) : List (List Char) := splitOnCharAux sep s []

/-- The App.js expression `selectedFile.name.split('.').pop().toLowerCase()`:
the last dot-separated segment of the name, lowercased. -/
def fileExtension (name : String) : String :=
  String.mk (((splitOnChar '.' name.data).getLastD []).map Char.toLower)

/-- JavaScript `s.endsWith(suffix)`. -/
def strEndsWith (s suffix : String) : Bool := decide (suffix.data <:+ s.data)

/-- Validation outcome of `handleFileChange` for a candidate file: the
file is accepted unless it is missing, empty, or has both a MIME type
outside `allowedTypes` and an extension outside `allowedExtensions`. -/
def validNewFile : Option JsFile → Bool
  | none => false
  | some f =>
    if f.size = 0 then false
    else if f.type ∉ allowedTypes ∧ ("." ++ fileExtension f.name) ∉ allowedExtensions then false
    else true

/-- App.js `handleFileChange`: validate the selected file and either set
an error message (leaving the rest of the state alone) or store the file
and reset the workflow state. -/
def handleFileChange : Option JsFile → AppState → AppState
  | none, s => { s with message := msgNoFile }
  | some f, s =>
    if f.size = 0 then { s with message := msgEmptyFile }
    else if f.type ∉ allowedTypes ∧ ("." ++ fileExtension f.name) ∉ allowedExtensions then
      { s with message := msgUnsupportedType }
    else
      { s with file := some f, message := "", downloadUrl := "", compressionInfo := none,
               uploadProgress := 0, showDecompressSection := false }

/-- App.js `handleCompressedFileChange`: accept only files whose name
ends in `.zip`. -/
def handleCompressedFileChange : Option JsFile → AppState → AppState
  | none, s => { s with message := msgNoCompressedFile }
  | some f, s =>
    if strEndsWith f.name ".zip" = false then { s with message := msgNotZip }
    else { s with compressedFile := some f, message := "" }

/-- JavaScript `s.replace(pat, repl)` with a string pattern: replace the
first occurrence of `pat` in `s`, or leave `s` unchanged if `pat` does
not occur. -/
def replaceFirstList : List Char → List Char → List Char → List Char
  | [], pat, repl => if pat = [] then repl else []
  | c :: cs, pat, repl =>
    if pat <+: c :: cs then repl ++ (c :: cs).drop pat.length
    else c :: replaceFirstList cs pat repl

/-- JavaScript `s.replace(pat, repl)` on Lean strings. -/
def jsReplaceFirst (s pat repl : String) : String :=
  String.mk (replaceFirstList s.data pat.data repl.data)

/-- The suggested filename App.js `handleDecompress` attaches to the
reconstructed download: `compressedFile.name.replace("_compressed.zip", "")`. -/
def decompressDownloadName (compressedName : String) : String :=
  jsReplaceFirst compressedName "_compressed.zip" ""

/-- The index of the first occurrence of `pat` in a character list, if
any: the least `i` such that `pat` starts at position `i`. -/
def firstOccurrence? (pat : List Char) : List Char → Option Nat
  | [] => if pat = [] then some 0 else none
  | c :: cs =>
    if pat <+: c :: cs then some 0
    else (firstOccurrence? pat cs).map (· + 1)

/-- A name with the first occurrence of a substring cut out (and the
name unchanged when the substring does not occur). -/
def removeSubstringOnce (s pat : List Char) : List Char :=
  match firstOccurrence? pat s with
  | none => s
  | some i => s.take i ++ s.drop (i + pat.length)

/-- Modelled from the claim wording for the decompression download name:
"the compressed file's name with the substring \x22_compressed.zip\x22
removed". -/
def nameWithMarkerRemoved (name : String) : String :=
  String.mk (removeSubstringOnce name.data "_compressed.zip".data)

/-- Modelled from the spec (§4.5): the Pipeline Orchestrator metric
`compression_ratio = original_size / compressed_size`, over exact
rationals. -/
def compression_ratio_value (originalSize compressedSize : ℚ) : ℚ :=
  originalSize / compressedSize

/-- Modelled from the spec (§4.5): the Pipeline Orchestrator metric
`space_saved_percent = (1 - compressed_size/original_size) * 100`, over
exact rationals. -/
def space_saved_percent (originalSize compressedSize : ℚ) : ℚ :=
  (1 - compressedSize / originalSize) * 100

/-- Modelled from the spec (§4.2): squared Euclidean distance between
two latent vectors (the minimizer of the squared distance is the
minimizer of the distance). -/
def sqDist (u v : List ℚ) : ℚ := (List.zipWith (fun a b => (a - b) ^ 2) u v).sum

/-- Scan of the remaining centroids keeping the best index so far;
`i` is the index of the head of `cs` in the full codebook, `best` the
current best index and `bd` its distance.  A later centroid replaces
the current best only at strictly smaller distance, so ties go to the
lowest index. -/
def nearestAux (v : List ℚ) : List (List ℚ) → Nat → Nat → ℚ → Nat
  | [], _, best, _ => best
  | c :: cs, i, best, bd =>
    if sqDist v c < bd then nearestAux v cs (i + 1) i (sqDist v c)
    else nearestAux v cs (i + 1) best bd

/-- Modelled from the spec (§4.2): `encode(LatentVector, Codebook) ->
CodeSymbol` returns the index of the centroid minimizing Euclidean
distance to the input vector, ties broken by lowest index. -/
def quantize_encode (v : List ℚ) : List (List ℚ) → Nat
  | [] => 0
  | c :: cs => nearestAux v cs 1 0 (sqDist v c)

/-- Modelled from the spec (§4.2): `decode(CodeSymbol, Codebook) ->
LatentVector` returns the centroid at that index unchanged. -/
def quantize_decode (i : Nat) (cb : List (List ℚ)) : List ℚ := cb.getD i []

/-- Huffman tree over the CodeSymbol alphabet: a leaf per symbol, and
every internal node has exactly two children (a merge of two
sub-alphabets). -/
inductive HTree where
  | leaf (sym : Nat)
  | node (left right : HTree)
deriving DecidableEq

/-- The symbols at the leaves of a Huffman tree, left to right. -/
def HTree.syms : HTree → List Nat
  | leaf s => [s]
  | node l r => syms l ++ syms r

/-- Height of a Huffman tree. -/
def HTree.height : HTree → Nat
  | leaf _ => 0
  | node l r => max (height l) (height r) + 1

/-- The leaves of a Huffman tree, each paired with its depth, all depths
offset by `d`. -/
def HTree.leavesD : HTree → Nat → List (Nat × Nat)
  | leaf s, d => [(s, d)]
  | node l r, d => leavesD l (d + 1) ++ leavesD r (d + 1)

/-- Modelled from the spec (§4.3 build phase): the empirical frequency
of each CodeSymbol value across the full sequence. -/
def freqTable (s : List Nat) : List (Nat × Nat) := s.dedup.map (fun a => (a, s.count a))

/-- A work item of the tree-building loop: total weight, smallest
constituent symbol index (the spec's merge tie-break key), and the tree
built so far. -/
abbrev HItem := Nat × Nat × HTree

/-- Priority order on work items: lower weight first, ties by smaller
constituent symbol index. -/
def hItemLe (x y : HItem) : Prop := x.1 < y.1 ∨ (x.1 = y.1 ∧ x.2.1 ≤ y.2.1)

instance : DecidableRel hItemLe := fun x y => by
  unfold hItemLe; exact inferInstance

/-- The symbols carried by a work-item list, in order. -/
def itemSyms (l : List HItem) : List Nat := (l.map (fun it => it.2.2.syms)).flatten

/-- Modelled from the spec (§4.3 build phase): repeatedly merge the two
lowest-priority items until one tree remains.  `fuel` bounds the number
of merges; it is initialised to the item count, which always suffices
because every merge shrinks the list by one. -/
def buildLoop : Nat → List HItem → Option HTree
  | _, [] => none
  | _, [x] => some x.2.2
  | 0, _ :: _ :: _ => none
  | fuel + 1, x :: y :: rest =>
    match List.insertionSort hItemLe (x :: y :: rest) with
    | [] => none
    | [z] => some z.2.2
    | z₁ :: z₂ :: zs =>
      buildLoop fuel ((z₁.1 + z₂.1, min z₁.2.1 z₂.2.1, HTree.node z₁.2.2 z₂.2.2) :: zs)

/-- Modelled from the spec (§4.3 build phase): build the Huffman tree of
a frequency table, starting from one weighted leaf per symbol. -/
def buildTree (fr : List (Nat × Nat)) : Option HTree :=
  buildLoop (fr.map (fun p => (p.2, p.1, HTree.leaf p.1))).length
    (fr.map (fun p => (p.2, p.1, HTree.leaf p.1)))

/-- Canonical leaf order of the spec (§4.3): code length ascending, then
symbol index ascending, on (symbol, length) pairs. -/
def leafLe (x y : Nat × Nat) : Prop := x.2 < y.2 ∨ (x.2 = y.2 ∧ x.1 ≤ y.1)

instance : DecidableRel leafLe := fun x y => by
  unfold leafLe; exact inferInstance

instance : IsTotal (Nat × Nat) leafLe := ⟨by intro a b; unfold leafLe; omega⟩

instance : IsTrans (Nat × Nat) leafLe := ⟨by intro a b c; unfold leafLe; omega⟩

/-- The bit pattern of value `c` in exactly `len` bits, most significant
bit first (the spec's "consecutive binary values padded to each leaf's
length"). -/
def natBits : Nat → Nat → List Bool
  | 0, _ => []
  | len + 1, c => decide (2 ^ len ≤ c) :: natBits len (c % 2 ^ len)

/-- Modelled from the spec (§4.3): canonical code assignment down a
(length, symbol)-sorted leaf list: the first leaf gets code value 0, and
each later leaf gets the previous value plus one, shifted left by the
length difference.  `next` is the next code value at the previous
length `lp`. -/
def assignFrom : Nat → Nat → List (Nat × Nat) → List (Nat × Nat × Nat)
  | _, _, [] => []
  | next, lp, (s, l) :: rest =>
    (s, l, next * 2 ^ (l - lp)) :: assignFrom (next * 2 ^ (l - lp) + 1) l rest

/-- Modelled from the spec (§4.3): the Huffman code table of a frequency
table, as (symbol, code length, code value) triples: leaf depths give
code lengths, canonically reassigned in (length, symbol) order.  The
single-symbol edge case receives a 1-bit code rather than a 0-bit
code. -/
def buildTable (fr : List (Nat × Nat)) : List (Nat × Nat × Nat) :=
  match buildTree fr with
  | none => []
  | some (HTree.leaf a) => [(a, 1, 0)]
  | some t => assignFrom 0 0 (List.insertionSort leafLe (t.leavesD 0))

/-- The bit pattern of a code-table entry. -/
def codeBits (e : Nat × Nat × Nat) : List Bool := natBits e.2.1 e.2.2

/-- A prefix-free code table: no entry's assigned bit pattern is a
prefix of another entry's assigned bit pattern. -/
def TablePF (table : List (Nat × Nat × Nat)) : Prop :=
  List.Pairwise (fun e f => ¬ codeBits e <+: codeBits f ∧ ¬ codeBits f <+: codeBits e) table

/-- The code table's bit pattern for symbol `a` (first matching
entry). -/
def codeOf (table : List (Nat × Nat × Nat)) (a : Nat) : List Bool :=
  match table.find? (fun e => e.1 == a) with
  | some e => codeBits e
  | none => []

/-- Modelled from the spec (§4.3 Encode): pad the final byte with zero
bits. -/
def padToByte (bs : List Bool) : List Bool :=
  bs ++ List.replicate ((8 - bs.length % 8) % 8) false

/-- An encoded symbol stream: the persisted code table, the padded
bit-packed stream, the true bit count and the symbol count. -/
structure HuffEncoded where
  table : List (Nat × Nat × Nat)
  bits : List Bool
  bitCount : Nat
  symCount : Nat
deriving DecidableEq

/-- Modelled from the spec (§4.3 Encode): replace each CodeSymbol with
its bit pattern, concatenate, pad the final byte with zero bits, and
record the true bit count and the symbol count. -/
def huffman_encode (s : List Nat) : HuffEncoded :=
  { table := buildTable (freqTable s)
    bits := padToByte ((s.map (codeOf (buildTable (freqTable s)))).flatten)
    bitCount := ((s.map (codeOf (buildTable (freqTable s)))).flatten).length
    symCount := s.length }

/-- One decoding step (§4.3 Decode): find the code-table entry whose bit
pattern is a prefix of the remaining stream and consume it. -/
def decodeSym (table : List (Nat × Nat × Nat)) (bs : List Bool) : Option (Nat × List Bool) :=
  match table with
  | [] => none
  | e :: rest =>
    if codeBits e <+: bs then some (e.1, bs.drop (codeBits e).length)
    else decodeSym rest bs

/-- Modelled from the spec (§4.3 Decode): emit one CodeSymbol per code
matched, stopping after the recorded symbol count; a stream that cannot
reach a valid code signals failure. -/
def decodeLoop (table : List (Nat × Nat × Nat)) : Nat → List Bool → Option (List Nat)
  | 0, _ => some []
  | n + 1, bs =>
    match decodeSym table bs with
    | none => none
    | some (a, rest) => (decodeLoop table n rest).map (a :: ·)

/-- Modelled from the spec (§4.3 Decode): decode the true-bit-count
prefix of the padded stream, so zero-bit padding is never interpreted as
data. -/
def huffman_decode (e : HuffEncoded) : Option (List Nat) :=
  decodeLoop e.table e.symCount (e.bits.take e.bitCount)

/-- Modelled from the spec (§3, §4.5): the CompressedContainer header
and payload: original byte length, block length L, latent dimensionality
D, the embedded codebook, the persisted code table, and the bit-packed
symbol stream with its true bit count and symbol count. -/
structure CompressedContainer where
  originalLen : Nat
  blockLen : Nat
  dim : Nat
  codebook : List (List ℚ)
  table : List (Nat × Nat × Nat)
  bits : List Bool
  bitCount : Nat
  symCount : Nat

/-- Number of RawBlocks of length L covering n input bytes (ceiling
division). -/
def numBlocks (L n : Nat) : Nat := (n + L - 1) / L

/-- Modelled from the spec (§3 RawBlock): the i-th block of the input,
zero-padded to length L. -/
def blockAt (L : Nat) (x : List Nat) (i : Nat) : List Nat :=
  (x.drop (i * L)).take L ++ List.replicate (L - ((x.drop (i * L)).take L).length) 0

/-- Modelled from the spec (§3, §4.5): slice the input into RawBlocks of
length L, zero-padding the final block. -/
def toBlocks (L : Nat) (x : List Nat) : List (List Nat) :=
  (List.range (numBlocks L x.length)).map (blockAt L x)

/-- The CodeSymbol sequence of an input: every RawBlock is passed
through the Latent Transform and quantized against the codebook. -/
def symStream (L : Nat) (latentEnc : List Nat → List ℚ) (cb : List (List ℚ))
    (x : List Nat) : List Nat :=
  (toBlocks L x).map (fun b => quantize_encode (latentEnc b) cb)

/-- Modelled from the spec (§4.5 compress): Preprocess → Latent
Transform(encode) → Quantizer(encode) → Huffman(encode) → Container
write.  The Latent Transform is the spec's black-box deterministic
numeric contract, passed in as `latentEnc`. -/
def compress (L D : Nat) (latentEnc : List Nat → List ℚ) (cb : List (List ℚ)) (x : List Nat) :
    CompressedContainer :=
  { originalLen := x.length, blockLen := L, dim := D, codebook := cb,
    table := (huffman_encode (symStream L latentEnc cb x)).table,
    bits := (huffman_encode (symStream L latentEnc cb x)).bits,
    bitCount := (huffman_encode (symStream L latentEnc cb x)).bitCount,
    symCount := (huffman_encode (symStream L latentEnc cb x)).symCount }

/-- Modelled from the spec (§4.4, §4.5 decompress): validate the header
length fields against the actual stream (CorruptContainer) and the
codebook centroid widths against the declared dimensionality
(DimensionMismatch), then Huffman(decode) → Quantizer(decode) → Latent
Transform(decode), and drop the zero padding of the final RawBlock using
the original-length header field. -/
def decompress (latentDec : List ℚ → List Nat) (c : CompressedContainer) : Option (List Nat) :=
  if c.bits.length % 8 ≠ 0 ∨ c.bits.length < c.bitCount then none
  else if ¬ (∀ v ∈ c.codebook, v.length = c.dim) then none
  else
    match decodeLoop c.table c.symCount (c.bits.take c.bitCount) with
    | none => none
    | some syms =>
      some (((syms.map (fun i => latentDec (quantize_decode i c.codebook))).flatten).take
        c.originalLen)

theorem natBits_length : ∀ (len c : Nat), (natBits len c).length = len
  | 0, _ => rfl
  | len + 1, c => by simp [natBits, natBits_length len]

theorem mod_pow_split (l c : Nat) (h : c < 2 ^ (l + 1)) :
    c % 2 ^ l = if 2 ^ l ≤ c then c - 2 ^ l else c := by
  have h2 : 2 ^ (l + 1) = 2 ^ l + 2 ^ l := by rw [pow_succ]; omega
  by_cases hc : 2 ^ l ≤ c
  · rw [if_pos hc, Nat.mod_eq_sub_mod hc, Nat.mod_eq_of_lt (by omega)]
  · rw [if_neg hc, Nat.mod_eq_of_lt (by omega)]

theorem natBits_inj : ∀ (l c c' : Nat), c < 2 ^ l → c' < 2 ^ l →
    natBits l c = natBits l c' → c = c'
  | 0, c, c', hc, hc', _ => by
    simp only [pow_zero, Nat.lt_one_iff] at hc hc'
    omega
  | l + 1, c, c', hc, hc', h => by
    simp only [natBits, List.cons.injEq] at h
    obtain ⟨hhead, htail⟩ := h
    have hiff : (2 ^ l ≤ c) ↔ (2 ^ l ≤ c') := decide_eq_decide.mp hhead
    have hmeq : c % 2 ^ l = c' % 2 ^ l :=
      natBits_inj l _ _ (Nat.mod_lt c (Nat.two_pow_pos l)) (Nat.mod_lt c' (Nat.two_pow_pos l))
        htail
    rw [mod_pow_split l c hc, mod_pow_split l c' hc'] at hmeq
    by_cases hx : 2 ^ l ≤ c
    · have hx' := hiff.mp hx
      rw [if_pos hx, if_pos hx'] at hmeq
      omega
    · have hx' : ¬ 2 ^ l ≤ c' := fun hy => hx (hiff.mpr hy)
      rw [if_neg hx, if_neg hx'] at hmeq
      omega

theorem natBits_prefix_div : ∀ (l l' c c' : Nat), l ≤ l' → c < 2 ^ l → c' < 2 ^ l' →
    natBits l c <+: natBits l' c' → c = c' / 2 ^ (l' - l)
  | 0, l', c, c', _, hc, hc', _ => by
    simp only [pow_zero, Nat.lt_one_iff] at hc
    rw [hc, Nat.sub_zero]
    exact (Nat.div_eq_of_lt hc').symm
  | l + 1, l', c, c', hll, hc, hc', hpre => by
    cases l' with
    | zero => omega
    | succ m =>
      have hlm : l ≤ m := by omega
      simp only [natBits, List.cons_prefix_cons] at hpre
      obtain ⟨hhead, htail⟩ := hpre
      have hiff : (2 ^ l ≤ c) ↔ (2 ^ m ≤ c') := decide_eq_decide.mp hhead
      have hrec : c % 2 ^ l = (c' % 2 ^ m) / 2 ^ (m - l) :=
        natBits_prefix_div l m _ _ hlm (Nat.mod_lt c (Nat.two_pow_pos l))
          (Nat.mod_lt c' (Nat.two_pow_pos m)) htail
      have hsub : m + 1 - (l + 1) = m - l := by omega
      rw [hsub]
      have hr : c' % 2 ^ m < 2 ^ m := Nat.mod_lt c' (Nat.two_pow_pos m)
      have hdm := Nat.div_add_mod c' (2 ^ m)
      have hp : 2 ^ l * 2 ^ (m - l) = 2 ^ m := by rw [← pow_add]; congr 1; omega
      rw [mod_pow_split l c hc] at hrec
      by_cases hx : 2 ^ l ≤ c
      · have hx' : 2 ^ m ≤ c' := hiff.mp hx
        have hq1 : c' / 2 ^ m = 1 := by
          apply Nat.div_eq_of_lt_le
          · simpa using hx'
          · have h21 : 2 ^ (m + 1) = 2 * 2 ^ m := by rw [pow_succ]; ring
            omega
        rw [hq1] at hdm
        have hc'eq : c' = c' % 2 ^ m + 2 ^ l * 2 ^ (m - l) := by omega
        rw [hc'eq, Nat.add_mul_div_right _ _ (Nat.two_pow_pos (m - l))]
        rw [if_pos hx] at hrec
        omega
      · have hx' : ¬ 2 ^ m ≤ c' := fun hy => hx (hiff.mpr hy)
        have hmm : c' % 2 ^ m = c' := Nat.mod_eq_of_lt (by omega)
        rw [if_neg hx] at hrec
        rw [hmm] at hrec
        exact hrec

theorem sqDist_nonneg (u v : List ℚ) : 0 ≤ sqDist u v := by
  induction u generalizing v with
  | nil => simp [sqDist]
  | cons a u ih =>
    cases v with
    | nil => simp [sqDist]
    | cons b v =>
      have h := ih v
      simp only [sqDist, List.zipWith_cons_cons, List.sum_cons] at *
      have h2 : (0:ℚ) ≤ (a - b) ^ 2 := sq_nonneg _
      linarith

theorem sqDist_self (v : List ℚ) : sqDist v v = 0 := by
  induction v with
  | nil => simp [sqDist]
  | cons a u ih =>
    simp only [sqDist, List.zipWith_cons_cons, List.sum_cons] at *
    simp [ih]

theorem eq_of_sqDist_eq_zero :
    ∀ u v : List ℚ, u.length = v.length → sqDist u v = 0 → u = v
  | [], [], _, _ => rfl
  | a :: u, b :: v, hl, h => by
    have hl' : u.length = v.length := by simpa using hl
    have h1 : (0:ℚ) ≤ (a - b) ^ 2 := sq_nonneg _
    have h2 := sqDist_nonneg u v
    simp only [sqDist, List.zipWith_cons_cons, List.sum_cons] at h
    have hab : (a - b) ^ 2 = 0 := by
      have : sqDist u v = (List.zipWith (fun a b => (a - b) ^ 2) u v).sum := rfl
      rw [← this] at h
      linarith
    have hab' : a = b := by
      have := sq_eq_zero_iff.mp hab
      linarith [sub_eq_zero.mp this]
    have htail : sqDist u v = 0 := by
      have : sqDist u v = (List.zipWith (fun a b => (a - b) ^ 2) u v).sum := rfl
      rw [← this] at h
      linarith
    rw [hab', eq_of_sqDist_eq_zero u v hl' htail]

theorem nearestAux_of_zero (v : List ℚ) :
    ∀ (cs : List (List ℚ)) (i best : Nat), nearestAux v cs i best 0 = best := by
  intro cs
  induction cs with
  | nil => intro i best; rfl
  | cons c cs ih =>
    intro i best
    have : ¬ sqDist v c < 0 := not_lt.mpr (sqDist_nonneg v c)
    simp [nearestAux, this, ih]

theorem nearestAux_target (v : List ℚ) :
    ∀ (cs : List (List ℚ)) (t i best : Nat) (bd : ℚ) (ht : t < cs.length),
      0 < bd →
      (∀ j (hj : j < cs.length), j < t → sqDist v cs[j] ≠ 0) →
      sqDist v cs[t] = 0 →
      nearestAux v cs i best bd = i + t := by
  intro cs
  induction cs with
  | nil => intro t i best bd ht; simp at ht
  | cons c cs ih =>
    intro t i best bd ht hbd hbefore htarget
    cases t with
    | zero =>
      have hc : sqDist v c = 0 := by simpa using htarget
      simp [nearestAux, hc, hbd, nearestAux_of_zero]
    | succ t =>
      have hc0 : sqDist v c ≠ 0 := by
        have := hbefore 0 (by simp) (Nat.succ_pos t)
        simpa using this
      have hcpos : 0 < sqDist v c := lt_of_le_of_ne (sqDist_nonneg v c) (Ne.symm hc0)
      have ht' : t < cs.length := by simpa using ht
      have hbefore' : ∀ j (hj : j < cs.length), j < t → sqDist v cs[j] ≠ 0 := by
        intro j hj hjt
        have := hbefore (j + 1) (by simpa using Nat.succ_lt_succ hj) (Nat.succ_lt_succ hjt)
        simpa using this
      have htarget' : sqDist v cs[t] = 0 := by simpa using htarget
      by_cases hlt : sqDist v c < bd
      · simp only [nearestAux, if_pos hlt]
        have := ih t (i + 1) i (sqDist v c) ht' hcpos hbefore' htarget'
        omega
      · simp only [nearestAux, if_neg hlt]
        have := ih t (i + 1) best bd ht' hbd hbefore' htarget'
        omega

theorem quantize_decode_eq_getElem (cb : List (List ℚ)) (i : Nat) (hi : i < cb.length) :
    quantize_decode i cb = cb[i] := by
  simp [quantize_decode, List.getD_eq_getElem?_getD, List.getElem?_eq_getElem hi]

/-- C5 (amended): for every Codebook whose centroids are pairwise
distinct latent vectors of the declared dimensionality, and every
CodeSymbol `i` in `[0, K)`, `quantize_encode (quantize_decode i) = i`:
decode returns the exact centroid stored at index `i` and encode, with
ties broken by lowest index, returns `i` itself.  (Without the
distinctness assumption a duplicated centroid at a lower index wins the
tie, refuting the claim as originally stated.) -/
theorem c5_quantize_roundtrip_distinct (cb : List (List ℚ)) (D i : Nat)
    (hi : i < cb.length) (hnd : cb.Nodup) (hD : ∀ v ∈ cb, v.length = D) :
    quantize_encode (quantize_decode i cb) cb = i := by
  cases cb with
  | nil => simp at hi
  | cons c cs =>
    cases i with
    | zero =>
      rw [quantize_decode_eq_getElem _ _ hi]
      show nearestAux ((c :: cs)[0]) cs 1 0 (sqDist (c :: cs)[0] c) = 0
      simp only [List.getElem_cons_zero]
      rw [sqDist_self, nearestAux_of_zero]
    | succ t =>
      have ht : t < cs.length := by simpa using hi
      rw [quantize_decode_eq_getElem _ _ hi]
      have hv : (c :: cs)[t + 1] = cs[t] := List.getElem_cons_succ ..
      rw [hv]
      have hmem : cs[t] ∈ cs := List.getElem_mem ..
      have hcnot : c ∉ cs := (List.nodup_cons.mp hnd).1
      have hndcs : cs.Nodup := (List.nodup_cons.mp hnd).2
      have hlen : ∀ w ∈ cs, w.length = c.length := by
        intro w hw
        rw [hD w (List.mem_cons_of_mem _ hw), hD c (List.mem_cons_self ..)]
      have hc0 : sqDist cs[t] c ≠ 0 := by
        intro h0
        have : cs[t] = c := eq_of_sqDist_eq_zero _ _ (hlen _ hmem) h0
        exact hcnot (this ▸ hmem)
      have hbd : 0 < sqDist cs[t] c := lt_of_le_of_ne (sqDist_nonneg ..) (Ne.symm hc0)
      have hbefore : ∀ j (hj : j < cs.length), j < t → sqDist cs[t] cs[j] ≠ 0 := by
        intro j hj hjt h0
        have hjm : cs[j] ∈ cs := List.getElem_mem ..
        have heq : cs[t] = cs[j] := by
          apply eq_of_sqDist_eq_zero _ _ _ h0
          rw [hlen _ hmem, hlen _ hjm]
        have : t = j := (@List.Nodup.getElem_inj_iff _ cs hndcs t ht j hj).mp heq
        omega
      have := nearestAux_target cs[t] cs t 1 0 (sqDist cs[t] c) ht hbd hbefore (sqDist_self _)
      show nearestAux cs[t] cs 1 0 (sqDist cs[t] c) = t + 1
      omega

theorem leavesD_depth_bound : ∀ (t : HTree) (d : Nat) (p : Nat × Nat),
    p ∈ t.leavesD d → d ≤ p.2 ∧ p.2 ≤ d + t.height
  | HTree.leaf s, d, p, hp => by
    simp only [HTree.leavesD, List.mem_singleton] at hp
    simp [hp, HTree.height]
  | HTree.node l r, d, p, hp => by
    simp only [HTree.leavesD, List.mem_append] at hp
    rcases hp with h | h
    · have := leavesD_depth_bound l (d + 1) p h
      simp only [HTree.height]
      omega
    · have := leavesD_depth_bound r (d + 1) p h
      simp only [HTree.height]
      omega

theorem kraft_sum : ∀ (t : HTree) (d D : Nat), d + t.height ≤ D →
    ((t.leavesD d).map (fun p => 2 ^ (D - p.2))).sum = 2 ^ (D - d)
  | HTree.leaf _, d, D, _ => by simp [HTree.leavesD]
  | HTree.node l r, d, D, h => by
    simp only [HTree.height] at h
    have hl : d + 1 + l.height ≤ D := by omega
    have hr : d + 1 + r.height ≤ D := by omega
    simp only [HTree.leavesD, List.map_append, List.sum_append,
      kraft_sum l (d + 1) D hl, kraft_sum r (d + 1) D hr]
    have hd : D - d = (D - (d + 1)) + 1 := by omega
    rw [hd, pow_succ]
    omega

theorem leavesD_map_fst : ∀ (t : HTree) (d : Nat), (t.leavesD d).map Prod.fst = t.syms
  | HTree.leaf _, _ => rfl
  | HTree.node l r, d => by
    simp [HTree.leavesD, HTree.syms, leavesD_map_fst l (d + 1), leavesD_map_fst r (d + 1)]

theorem perm_flatten {α : Type} {l₁ l₂ : List (List α)} (h : l₁.Perm l₂) :
    l₁.flatten.Perm l₂.flatten := by
  induction h with
  | nil => simp
  | cons x _ ih => simpa using ih.append_left x
  | swap x y l =>
    simp only [List.flatten_cons, ← List.append_assoc]
    exact List.perm_append_comm.append_right _
  | trans _ _ ih₁ ih₂ => exact ih₁.trans ih₂

theorem buildLoop_syms : ∀ (fuel : Nat) (l : List HItem) (t : HTree),
    buildLoop fuel l = some t → t.syms.Perm (itemSyms l) := by
  intro fuel
  induction fuel with
  | zero =>
    intro l t h
    match l with
    | [] => simp [buildLoop] at h
    | [x] =>
      simp only [buildLoop, Option.some.injEq] at h
      subst h
      simp [itemSyms]
    | x :: y :: rest => simp [buildLoop] at h
  | succ fuel ih =>
    intro l t h
    match l with
    | [] => simp [buildLoop] at h
    | [x] =>
      simp only [buildLoop, Option.some.injEq] at h
      subst h
      simp [itemSyms]
    | x :: y :: rest =>
      simp only [buildLoop] at h
      split at h
      · exact absurd h (by simp)
      · rename_i z hz
        have hp := List.perm_insertionSort hItemLe (x :: y :: rest)
        rw [hz] at hp
        have := hp.length_eq
        simp at this
      · rename_i z₁ z₂ zs hz
        have hp := List.perm_insertionSort hItemLe (x :: y :: rest)
        rw [hz] at hp
        have hrec := ih _ _ h
        refine hrec.trans ?_
        have h1 : itemSyms ((z₁.1 + z₂.1, min z₁.2.1 z₂.2.1, HTree.node z₁.2.2 z₂.2.2) :: zs)
            = itemSyms (z₁ :: z₂ :: zs) := by
          simp [itemSyms, HTree.syms, List.append_assoc]
        rw [h1]
        exact perm_flatten (hp.map _)

theorem buildLoop_isSome : ∀ (fuel : Nat) (l : List HItem), l ≠ [] → l.length ≤ fuel + 1 →
    (buildLoop fuel l).isSome := by
  intro fuel
  induction fuel with
  | zero =>
    intro l hne hlen
    match l with
    | [] => exact absurd rfl hne
    | [x] => simp [buildLoop]
    | x :: y :: rest => simp at hlen
  | succ fuel ih =>
    intro l hne hlen
    match l with
    | [] => exact absurd rfl hne
    | [x] => simp [buildLoop]
    | x :: y :: rest =>
      simp only [buildLoop]
      split
      · rename_i hz
        have hp := List.perm_insertionSort hItemLe (x :: y :: rest)
        rw [hz] at hp
        have := hp.length_eq
        simp at this
      · simp
      · rename_i z₁ z₂ zs hz
        apply ih
        · simp
        · have hp := List.perm_insertionSort hItemLe (x :: y :: rest)
          rw [hz] at hp
          have hle := hp.length_eq
          simp only [List.length_cons] at hle hlen ⊢
          omega

theorem itemSyms_leafItems : ∀ (fr : List (Nat × Nat)),
    itemSyms (fr.map (fun p => (p.2, p.1, HTree.leaf p.1))) = fr.map Prod.fst
  | [] => rfl
  | p :: fr => by
    have ih := itemSyms_leafItems fr
    simp only [itemSyms, List.map_cons, List.flatten_cons] at ih ⊢
    rw [ih]
    rfl

theorem buildTree_syms (fr : List (Nat × Nat)) (t : HTree) (h : buildTree fr = some t) :
    t.syms.Perm (fr.map Prod.fst) := by
  have hb := buildLoop_syms _ _ _ h
  rwa [itemSyms_leafItems] at hb

theorem buildTree_isSome (fr : List (Nat × Nat)) (h : fr ≠ []) : (buildTree fr).isSome := by
  apply buildLoop_isSome
  · simpa using h
  · omega

theorem assignFrom_map_fst : ∀ (next lp : Nat) (xs : List (Nat × Nat)),
    (assignFrom next lp xs).map Prod.fst = xs.map Prod.fst
  | _, _, [] => rfl
  | next, lp, (s, l) :: rest => by
    simp only [assignFrom, List.map_cons]
    rw [assignFrom_map_fst]

theorem assignFrom_bounds : ∀ (xs : List (Nat × Nat)) (next lp L : Nat),
    (∀ p ∈ xs, lp ≤ p.2 ∧ p.2 ≤ L) →
    List.Pairwise (fun p q => p.2 ≤ q.2) xs →
    next * 2 ^ (L - lp) + (xs.map (fun p => 2 ^ (L - p.2))).sum ≤ 2 ^ L →
    (∀ e ∈ assignFrom next lp xs,
        lp ≤ e.2.1 ∧ next * 2 ^ (e.2.1 - lp) ≤ e.2.2 ∧ e.2.2 + 1 ≤ 2 ^ e.2.1) ∧
    List.Pairwise (fun e f => e.2.1 ≤ f.2.1 ∧ (e.2.2 + 1) * 2 ^ (f.2.1 - e.2.1) ≤ f.2.2)
      (assignFrom next lp xs)
  | [], next, lp, L, _, _, _ => by simp [assignFrom]
  | (s, l) :: rest, next, lp, L, hb, hs, hsum => by
    have hlpl : lp ≤ l := (hb (s, l) (List.mem_cons_self ..)).1
    have hlL : l ≤ L := (hb (s, l) (List.mem_cons_self ..)).2
    have hkey : next * 2 ^ (L - lp) = next * 2 ^ (l - lp) * 2 ^ (L - l) := by
      rw [mul_assoc, ← pow_add]
      congr 2
      omega
    have hsum1 : (next * 2 ^ (l - lp) + 1) * 2 ^ (L - l)
        + (rest.map (fun p => 2 ^ (L - p.2))).sum ≤ 2 ^ L := by
      simp only [List.map_cons, List.sum_cons] at hsum
      rw [hkey] at hsum
      calc (next * 2 ^ (l - lp) + 1) * 2 ^ (L - l) + (rest.map (fun p => 2 ^ (L - p.2))).sum
          = next * 2 ^ (l - lp) * 2 ^ (L - l)
            + (2 ^ (L - l) + (rest.map (fun p => 2 ^ (L - p.2))).sum) := by ring
        _ ≤ 2 ^ L := hsum
    have hval : next * 2 ^ (l - lp) + 1 ≤ 2 ^ l := by
      have h1 : (next * 2 ^ (l - lp) + 1) * 2 ^ (L - l) ≤ 2 ^ L :=
        le_trans (Nat.le_add_right _ _) hsum1
      have h2 : 2 ^ L = 2 ^ l * 2 ^ (L - l) := by rw [← pow_add]; congr 1; omega
      rw [h2] at h1
      exact Nat.le_of_mul_le_mul_right h1 (Nat.two_pow_pos _)
    have hbrest : ∀ p ∈ rest, l ≤ p.2 ∧ p.2 ≤ L := by
      intro p hp
      exact ⟨(List.pairwise_cons.mp hs).1 p hp, (hb p (List.mem_cons_of_mem _ hp)).2⟩
    have hrec := assignFrom_bounds rest (next * 2 ^ (l - lp) + 1) l L hbrest
      (List.pairwise_cons.mp hs).2 hsum1
    constructor
    · intro e he
      simp only [assignFrom] at he
      rcases List.mem_cons.mp he with rfl | he
      · exact ⟨hlpl, le_refl _, hval⟩
      · obtain ⟨h1, h2, h3⟩ := hrec.1 e he
        refine ⟨le_trans hlpl h1, ?_, h3⟩
        have hsplit : next * 2 ^ (e.2.1 - lp) = next * 2 ^ (l - lp) * 2 ^ (e.2.1 - l) := by
          rw [mul_assoc, ← pow_add]
          congr 2
          omega
        rw [hsplit]
        calc next * 2 ^ (l - lp) * 2 ^ (e.2.1 - l)
            ≤ (next * 2 ^ (l - lp) + 1) * 2 ^ (e.2.1 - l) :=
              Nat.mul_le_mul_right _ (by omega)
          _ ≤ e.2.2 := h2
    · show List.Pairwise _ ((s, l, next * 2 ^ (l - lp)) :: assignFrom (next * 2 ^ (l - lp) + 1) l rest)
      apply List.pairwise_cons.mpr
      refine ⟨?_, hrec.2⟩
      intro f hf
      obtain ⟨h1, h2, _⟩ := hrec.1 f hf
      exact ⟨h1, h2⟩

theorem pairwise_and_forall {α : Type} {R : α → α → Prop} {P : α → Prop} :
    ∀ {l : List α}, List.Pairwise R l → (∀ x ∈ l, P x) →
      List.Pairwise (fun a b => R a b ∧ P a ∧ P b) l := by
  intro l
  induction l with
  | nil => intro _ _; exact List.Pairwise.nil
  | cons a l ih =>
    intro hp hP
    obtain ⟨h1, h2⟩ := List.pairwise_cons.mp hp
    apply List.pairwise_cons.mpr
    refine ⟨?_, ih h2 (fun x hx => hP x (List.mem_cons_of_mem _ hx))⟩
    intro b hb
    exact ⟨h1 b hb, hP a (List.mem_cons_self ..), hP b (List.mem_cons_of_mem _ hb)⟩

theorem canonical_pair_not_pre (l l' c c' : Nat) (hll : l ≤ l') (hv : c + 1 ≤ 2 ^ l)
    (hv' : c' + 1 ≤ 2 ^ l') (hstep : (c + 1) * 2 ^ (l' - l) ≤ c') :
    ¬ natBits l c <+: natBits l' c' ∧ ¬ natBits l' c' <+: natBits l c := by
  constructor
  · intro hpre
    have hdiv := natBits_prefix_div l l' c c' hll (by omega) (by omega) hpre
    have hge : c + 1 ≤ c' / 2 ^ (l' - l) := by
      rw [Nat.le_div_iff_mul_le (Nat.two_pow_pos _)]
      exact hstep
    omega
  · intro hpre
    have hlen := hpre.length_le
    rw [natBits_length, natBits_length] at hlen
    have hleq : l = l' := by omega
    subst hleq
    have heq : natBits l c' = natBits l c :=
      hpre.eq_of_length (by rw [natBits_length, natBits_length])
    have hcc := natBits_inj l c' c (by omega) (by omega) heq
    simp only [Nat.sub_self, pow_zero, mul_one] at hstep
    omega

theorem buildTable_pf (fr : List (Nat × Nat)) : TablePF (buildTable fr) := by
  unfold buildTable
  split
  · exact List.Pairwise.nil
  · exact List.pairwise_singleton _ _
  · rename_i t heq hnl
    have hperm := List.perm_insertionSort leafLe (t.leavesD 0)
    have hbounds : ∀ p ∈ List.insertionSort leafLe (t.leavesD 0), 0 ≤ p.2 ∧ p.2 ≤ t.height := by
      intro p hp
      have hp' : p ∈ t.leavesD 0 := hperm.mem_iff.mp hp
      have := leavesD_depth_bound t 0 p hp'
      omega
    have hsorted : List.Pairwise (fun p q : Nat × Nat => p.2 ≤ q.2)
        (List.insertionSort leafLe (t.leavesD 0)) := by
      apply List.Pairwise.imp _ (List.sorted_insertionSort leafLe (t.leavesD 0))
      intro a b hab
      unfold leafLe at hab
      omega
    have hsum : 0 * 2 ^ (t.height - 0)
        + ((List.insertionSort leafLe (t.leavesD 0)).map (fun p => 2 ^ (t.height - p.2))).sum
        ≤ 2 ^ t.height := by
      rw [(hperm.map (fun p => 2 ^ (t.height - p.2))).sum_eq]
      rw [kraft_sum t 0 t.height (by omega)]
      simp
    have hb := assignFrom_bounds (List.insertionSort leafLe (t.leavesD 0)) 0 0 t.height
      hbounds hsorted hsum
    unfold TablePF
    apply List.Pairwise.imp _ (pairwise_and_forall hb.2 hb.1)
    intro e f h
    obtain ⟨⟨hlef, hstep⟩, ⟨_, _, hve⟩, ⟨_, _, hvf⟩⟩ := h
    exact canonical_pair_not_pre e.2.1 f.2.1 e.2.2 f.2.2 hlef hve hvf hstep

theorem pre_of_pre_append_of_le {α : Type} {x y z : List α} (h : x <+: y ++ z)
    (hl : x.length ≤ y.length) : x <+: y := by
  have hx : x = (y ++ z).take x.length := List.prefix_iff_eq_take.mp h
  rw [List.take_append_of_le_length hl] at hx
  rw [hx]
  exact List.take_prefix _ _

theorem append_pre_of_pre_of_le {α : Type} {x y z : List α} (h : x <+: y ++ z)
    (hl : y.length ≤ x.length) : y <+: x := by
  have hx : x = (y ++ z).take x.length := List.prefix_iff_eq_take.mp h
  have hy : x.take y.length = y := by
    rw [hx, List.take_take, min_eq_left hl, List.take_left]
  rw [← hy]
  exact List.take_prefix _ _

theorem decodeSym_spec : ∀ (table : List (Nat × Nat × Nat)) (e : Nat × Nat × Nat)
    (rest : List Bool), e ∈ table →
    List.Pairwise (fun e f => ¬ codeBits e <+: codeBits f ∧ ¬ codeBits f <+: codeBits e) table →
    decodeSym table (codeBits e ++ rest) = some (e.1, rest)
  | [], e, _, he, _ => absurd he (List.not_mem_nil e)
  | f :: tb, e, rest, he, hpw => by
    rcases List.mem_cons.mp he with rfl | he'
    · simp only [decodeSym, if_pos (show codeBits e <+: codeBits e ++ rest from ⟨rest, rfl⟩)]
      rw [List.drop_left]
    · have hnp := (List.pairwise_cons.mp hpw).1 e he'
      have hcond : ¬ codeBits f <+: codeBits e ++ rest := by
        intro hp
        rcases le_or_lt (codeBits f).length (codeBits e).length with hle | hlt
        · exact hnp.1 (pre_of_pre_append_of_le hp hle)
        · exact hnp.2 (append_pre_of_pre_of_le hp (le_of_lt hlt))
      simp only [decodeSym, if_neg hcond]
      exact decodeSym_spec tb e rest he' (List.pairwise_cons.mp hpw).2

theorem codeOf_covered (table : List (Nat × Nat × Nat)) (a : Nat)
    (h : a ∈ table.map Prod.fst) : ∃ e ∈ table, e.1 = a ∧ codeOf table a = codeBits e := by
  obtain ⟨e, he, hfst⟩ := List.mem_map.mp h
  have hex : (table.find? (fun e => e.1 == a)).isSome := by
    apply List.find?_isSome.mpr
    exact ⟨e, he, by simp [hfst]⟩
  obtain ⟨f, hf⟩ := Option.isSome_iff_exists.mp hex
  refine ⟨f, List.mem_of_find?_eq_some hf, ?_, ?_⟩
  · have := List.find?_some hf
    simpa using this
  · simp [codeOf, hf]

theorem decodeLoop_encode (table : List (Nat × Nat × Nat))
    (hpw : List.Pairwise (fun e f => ¬ codeBits e <+: codeBits f ∧ ¬ codeBits f <+: codeBits e)
      table) :
    ∀ s : List Nat, (∀ a ∈ s, ∃ e ∈ table, e.1 = a ∧ codeOf table a = codeBits e) →
    decodeLoop table s.length ((s.map (codeOf table)).flatten) = some s := by
  intro s
  induction s with
  | nil => intro _; rfl
  | cons a s ih =>
    intro hcov
    obtain ⟨e, hmem, hfst, hcode⟩ := hcov a (List.mem_cons_self ..)
    simp only [List.map_cons, List.flatten_cons, List.length_cons, decodeLoop]
    rw [hcode, decodeSym_spec table e _ hmem hpw, hfst]
    show Option.map (a :: ·) (decodeLoop table s.length ((s.map (codeOf table)).flatten))
      = some (a :: s)
    rw [ih (fun b hb => hcov b (List.mem_cons_of_mem _ hb))]
    rfl

theorem buildTable_fst_perm (fr : List (Nat × Nat)) (t : HTree) (h : buildTree fr = some t) :
    ((buildTable fr).map Prod.fst).Perm (fr.map Prod.fst) := by
  have hsyms := buildTree_syms fr t h
  unfold buildTable
  rw [h]
  cases t with
  | leaf a => simpa [HTree.syms] using hsyms
  | node l r =>
    show ((assignFrom 0 0 (List.insertionSort leafLe ((HTree.node l r).leavesD 0))).map
      Prod.fst).Perm _
    rw [assignFrom_map_fst]
    refine ((List.perm_insertionSort leafLe _).map Prod.fst).trans ?_
    rw [leavesD_map_fst]
    exact hsyms

theorem freqTable_fst (s : List Nat) : (freqTable s).map Prod.fst = s.dedup := by
  unfold freqTable
  rw [List.map_map]
  have hcomp : (Prod.fst ∘ fun a => (a, s.count a)) = id := by
    funext a
    rfl
  rw [hcomp, List.map_id]

theorem decode_encode_aux (s : List Nat) :
    decodeLoop (buildTable (freqTable s)) s.length
      ((padToByte ((s.map (codeOf (buildTable (freqTable s)))).flatten)).take
        ((s.map (codeOf (buildTable (freqTable s)))).flatten).length) = some s := by
  simp only [padToByte]
  rw [List.take_left]
  apply decodeLoop_encode
  · exact buildTable_pf (freqTable s)
  · intro a ha
    apply codeOf_covered
    cases hbt : buildTree (freqTable s) with
    | none =>
      exfalso
      have hne : freqTable s ≠ [] := by
        have hd : a ∈ s.dedup := List.mem_dedup.mpr ha
        intro hemp
        have : s.dedup = [] := by
          have := congrArg (List.map Prod.fst) hemp
          rwa [freqTable_fst] at this
        rw [this] at hd
        exact List.not_mem_nil a hd
      have hsome := buildTree_isSome _ hne
      rw [hbt] at hsome
      simp at hsome
    | some t =>
      apply (buildTable_fst_perm _ _ hbt).mem_iff.mpr
      rw [freqTable_fst]
      exact List.mem_dedup.mpr ha

theorem padToByte_mod (bs : List Bool) : (padToByte bs).length % 8 = 0 := by
  simp only [padToByte, List.length_append, List.length_replicate]
  omega

theorem le_padToByte (bs : List Bool) : bs.length ≤ (padToByte bs).length := by
  simp [padToByte]

theorem numBlocks_mul_ge (L n : Nat) (hL : 0 < L) : n ≤ numBlocks L n * L := by
  unfold numBlocks
  by_contra hlt
  push_neg at hlt
  have h1 : ((n + L - 1) / L + 1) * L ≤ n + L - 1 := by
    have h2 : (n + L - 1) / L * L + L ≤ n + L - 1 := by omega
    calc ((n + L - 1) / L + 1) * L = (n + L - 1) / L * L + L := by ring
      _ ≤ n + L - 1 := h2
  have h3 := (Nat.le_div_iff_mul_le hL).mpr h1
  omega

theorem flatten_const_length {α : Type} (L : Nat) :
    ∀ l : List (List α), (∀ b ∈ l, b.length = L) → l.flatten.length = l.length * L
  | [], _ => by simp
  | b :: l, h => by
    simp only [List.flatten_cons, List.length_append, List.length_cons]
    rw [h b (List.mem_cons_self ..),
      flatten_const_length L l (fun c hc => h c (List.mem_cons_of_mem _ hc))]
    ring

theorem decompress_compress (L D : Nat) (latentEnc : List Nat → List ℚ)
    (latentDec : List ℚ → List Nat) (cb : List (List ℚ)) (x : List Nat)
    (hcb : ∀ v ∈ cb, v.length = D) :
    decompress latentDec (compress L D latentEnc cb x)
      = some (((symStream L latentEnc cb x).map
          (fun i => latentDec (quantize_decode i cb))).flatten.take x.length) := by
  unfold decompress
  rw [if_neg, if_neg]
  · have hdec : decodeLoop (compress L D latentEnc cb x).table
        (compress L D latentEnc cb x).symCount
        ((compress L D latentEnc cb x).bits.take (compress L D latentEnc cb x).bitCount)
        = some (symStream L latentEnc cb x) := decode_encode_aux (symStream L latentEnc cb x)
    rw [hdec]
    rfl
  · exact fun hn => hn hcb
  · intro hor
    have hb : (compress L D latentEnc cb x).bits
        = padToByte (((symStream L latentEnc cb x).map
          (codeOf (buildTable (freqTable (symStream L latentEnc cb x))))).flatten) := rfl
    have hbc : (compress L D latentEnc cb x).bitCount
        = (((symStream L latentEnc cb x).map
          (codeOf (buildTable (freqTable (symStream L latentEnc cb x))))).flatten).length := rfl
    rcases hor with h | h
    · rw [hb] at h
      exact h (padToByte_mod _)
    · rw [hb, hbc] at h
      have hle := le_padToByte (((symStream L latentEnc cb x).map
        (codeOf (buildTable (freqTable (symStream L latentEnc cb x))))).flatten)
      omega

theorem symStream_length (L : Nat) (latentEnc : List Nat → List ℚ) (cb : List (List ℚ))
    (x : List Nat) : (symStream L latentEnc cb x).length = numBlocks L x.length := by
  simp [symStream, toBlocks]

/-- C2: for every sequence of CodeSymbols, Huffman-decoding the
Huffman-encoding of the sequence returns exactly the sequence: the
encoder records the true bit count, so the decoder stops at the last
valid symbol and never interprets the zero-bit padding of the final
byte as data. -/
theorem c2_huffman_roundtrip (s : List Nat) : huffman_decode (huffman_encode s) = some s :=
  decode_encode_aux s

/-- C6: for every frequency distribution of CodeSymbols observed in a
file, the Huffman code table built from it is prefix-free: no assigned
bit pattern is a prefix of another assigned bit pattern. -/
theorem c6_table_not_self_embedding (fr : List (Nat × Nat)) : TablePF (buildTable fr) :=
  buildTable_pf fr

/-- C1: for every non-empty byte buffer `x` and every Latent Transform
and Codebook satisfying the spec's width contract, decompressing the
result of compressing `x` yields a byte buffer whose length equals the
length of `x`: the zero-padding added to the final RawBlock is dropped
using the original-length header field, even though the content itself
may differ because the latent-transform stage is lossy. -/
theorem c1_decompress_length (L D : Nat) (latentEnc : List Nat → List ℚ)
    (latentDec : List ℚ → List Nat) (cb : List (List ℚ)) (x : List Nat)
    (hL : 0 < L) (hdec : ∀ v, (latentDec v).length = L) (hcb : ∀ v ∈ cb, v.length = D)
    (_hx : x ≠ []) :
    ∃ y, decompress latentDec (compress L D latentEnc cb x) = some y
      ∧ y.length = x.length := by
  refine ⟨_, decompress_compress L D latentEnc latentDec cb x hcb, ?_⟩
  rw [List.length_take]
  have hflat : ((symStream L latentEnc cb x).map
      (fun i => latentDec (quantize_decode i cb))).flatten.length
      = ((symStream L latentEnc cb x).map (fun i => latentDec (quantize_decode i cb))).length
        * L := by
    apply flatten_const_length
    intro b hb
    obtain ⟨i, _, rfl⟩ := List.mem_map.mp hb
    exact hdec _
  rw [hflat, List.length_map, symStream_length]
  have hge := numBlocks_mul_ge L x.length hL
  omega

/-- Witness for C1 at a concrete block length, transform and input. -/
theorem c1_witness :
    0 < 2 ∧ ([1, 2, 3] : List Nat) ≠ [] ∧
    ∃ y, decompress (fun _ => [0, 0]) (compress 2 1 (fun _ => [(0:ℚ)]) [[(0:ℚ)]] [1, 2, 3])
        = some y ∧ y.length = ([1, 2, 3] : List Nat).length :=
  ⟨by decide, by decide,
    c1_decompress_length 2 1 (fun _ => [(0:ℚ)]) (fun _ => [0, 0]) [[(0:ℚ)]] [1, 2, 3]
      (by decide) (fun _ => rfl) (by simp) (by decide)⟩

/-- Counterexample for C5 as originally stated: in a Codebook with a
duplicated centroid, decode-then-encode at index 1 returns 0, because
the tie on the duplicated centroid is broken by lowest index. -/
theorem c5_counterexample :
    1 < ([[(0:ℚ)], [(0:ℚ)]] : List (List ℚ)).length ∧
    quantize_encode (quantize_decode 1 [[(0:ℚ)], [(0:ℚ)]]) [[(0:ℚ)], [(0:ℚ)]] ≠ 1 := by
  constructor
  · norm_num
  · norm_num [quantize_encode, quantize_decode, nearestAux, sqDist]

/-- Witness for C5 (amended) on a Codebook with distinct centroids. -/
theorem c5_witness :
    1 < ([[(0:ℚ)], [(1:ℚ)]] : List (List ℚ)).length ∧
    ([[(0:ℚ)], [(1:ℚ)]] : List (List ℚ)).Nodup ∧
    quantize_encode (quantize_decode 1 [[(0:ℚ)], [(1:ℚ)]]) [[(0:ℚ)], [(1:ℚ)]] = 1 :=
  ⟨by norm_num, by norm_num,
    c5_quantize_roundtrip_distinct [[(0:ℚ)], [(1:ℚ)]] 1 1 (by norm_num) (by norm_num)
      (by simp)⟩

/-- C7: for every successful compression (both sizes non-zero), the two
reported metrics are mutually consistent: `space_saved_percent`
equals `(1 - 1/compression_ratio) * 100` exactly over the rationals. -/
theorem c7_metrics_consistent (o c : Nat) (ho : o ≠ 0) (hc : c ≠ 0) :
    space_saved_percent (o : ℚ) (c : ℚ)
      = (1 - 1 / compression_ratio_value (o : ℚ) (c : ℚ)) * 100 := by
  have ho' : (o : ℚ) ≠ 0 := Nat.cast_ne_zero.mpr ho
  have hc' : (c : ℚ) ≠ 0 := Nat.cast_ne_zero.mpr hc
  unfold space_saved_percent compression_ratio_value
  rw [one_div_div]

/-- Witness for C7 at original size 4 and compressed size 2. -/
theorem c7_witness :
    (4 : Nat) ≠ 0 ∧ (2 : Nat) ≠ 0 ∧
    space_saved_percent ((4 : Nat) : ℚ) ((2 : Nat) : ℚ)
      = (1 - 1 / compression_ratio_value ((4 : Nat) : ℚ) ((2 : Nat) : ℚ)) * 100 :=
  ⟨by decide, by decide, c7_metrics_consistent 4 2 (by decide) (by decide)⟩

/-- C3: compression never fails because of the content of the input —
for every byte sequence (and every conforming Codebook) the compress
pipeline produces a container that decompression accepts — and, in the
front-end code, a selected file is rejected exactly when it is empty or
its MIME type and extension are both outside the fixed allowlists, so
file content beyond emptiness is never consulted. -/
theorem c3_compression_total :
    (∀ (L D : Nat) (latentEnc : List Nat → List ℚ) (latentDec : List ℚ → List Nat)
        (cb : List (List ℚ)) (x : List Nat), (∀ v ∈ cb, v.length = D) →
        ∃ y, decompress latentDec (compress L D latentEnc cb x) = some y) ∧
    (∀ f : JsFile, validNewFile (some f)
        = (decide (f.content ≠ []) && (decide (f.type ∈ allowedTypes)
          || decide (("." ++ fileExtension f.name) ∈ allowedExtensions)))) := by
  constructor
  · intro L D latentEnc latentDec cb x hcb
    exact ⟨_, decompress_compress L D latentEnc latentDec cb x hcb⟩
  · intro f
    simp only [validNewFile, JsFile.size]
    by_cases h0 : f.content.length = 0
    · have hnil : f.content = [] := List.eq_nil_of_length_eq_zero h0
      simp [h0, hnil]
    · have hne : f.content ≠ [] := by
        intro hnil
        rw [hnil] at h0
        exact h0 rfl
      rw [if_neg h0]
      by_cases ht : f.type ∈ allowedTypes
      · have hcond : ¬ (f.type ∉ allowedTypes
            ∧ ("." ++ fileExtension f.name) ∉ allowedExtensions) := by
          intro hcon
          exact hcon.1 ht
        rw [if_neg hcond]
        simp [ht, hne]
      · by_cases he : ("." ++ fileExtension f.name) ∈ allowedExtensions
        · have hcond : ¬ (f.type ∉ allowedTypes
              ∧ ("." ++ fileExtension f.name) ∉ allowedExtensions) := by
            intro hcon
            exact hcon.2 he
          rw [if_neg hcond]
          simp [he, hne]
        · rw [if_pos ⟨ht, he⟩]
          simp [ht, he]

/-- Witness for C3: a concrete pipeline run succeeds, and a concrete
file's validation result matches the content-independent formula. -/
theorem c3_witness :
    (∃ y, decompress (fun _ => [0]) (compress 1 1 (fun _ => [(0:ℚ)]) [[(0:ℚ)]] [5])
        = some y) ∧
    validNewFile (some ⟨"data.bin", "application/octet-stream", [7]⟩)
      = (decide ((⟨"data.bin", "application/octet-stream", [7]⟩ : JsFile).content ≠ [])
        && (decide ((⟨"data.bin", "application/octet-stream", [7]⟩ : JsFile).type ∈ allowedTypes)
          || decide (("." ++ fileExtension
              (⟨"data.bin", "application/octet-stream", [7]⟩ : JsFile).name)
            ∈ allowedExtensions))) :=
  ⟨c3_compression_total.1 1 1 (fun _ => [(0:ℚ)]) (fun _ => [0]) [[(0:ℚ)]] [5] (by simp),
    c3_compression_total.2 ⟨"data.bin", "application/octet-stream", [7]⟩⟩

/-- C4: an empty selected file is rejected by `handleFileChange` with
the distinct empty-file error message before any compression work: only
the message is set, and the message differs from the other rejection
messages and from the cleared message. -/
theorem c4_empty_rejected (f : JsFile) (s : AppState) (h : f.size = 0) :
    handleFileChange (some f) s = { s with message := msgEmptyFile }
      ∧ msgEmptyFile ≠ "" ∧ msgEmptyFile ≠ msgNoFile ∧ msgEmptyFile ≠ msgUnsupportedType := by
  refine ⟨?_, by decide, by decide, by decide⟩
  simp only [handleFileChange]
  rw [if_pos h]

/-- Witness for C4 on a concrete empty file and state. -/
theorem c4_witness :
    (⟨"empty.txt", "text/plain", []⟩ : JsFile).size = 0 ∧
    handleFileChange (some ⟨"empty.txt", "text/plain", []⟩)
        ⟨none, none, "", "", none, 0, false, false, false, false⟩
      = { (⟨none, none, "", "", none, 0, false, false, false, false⟩ : AppState) with
          message := msgEmptyFile } :=
  ⟨rfl, (c4_empty_rejected ⟨"empty.txt", "text/plain", []⟩
    ⟨none, none, "", "", none, 0, false, false, false, false⟩ rfl).1⟩

/-- C8: validation in `handleFileChange` is atomic in the UI state: on
every rejection path only the message is set, with every other field
unchanged, and the file and workflow fields are updated exactly when the
new file passes validation. -/
theorem c8_filechange_atomic (sel : Option JsFile) (s : AppState) :
    (validNewFile sel = false →
      handleFileChange sel s = { s with message := (handleFileChange sel s).message }) ∧
    (validNewFile sel = true →
      handleFileChange sel s = { s with
        file := sel, message := "", downloadUrl := "",
        compressionInfo := none, uploadProgress := 0, showDecompressSection := false }) := by
  cases sel with
  | none =>
    refine ⟨fun _ => rfl, fun hv => ?_⟩
    simp [validNewFile] at hv
  | some f =>
    constructor
    · intro hv
      simp only [validNewFile] at hv
      simp only [handleFileChange]
      by_cases h0 : f.size = 0
      · rw [if_pos h0]
      · rw [if_neg h0] at hv ⊢
        by_cases hcond : f.type ∉ allowedTypes
            ∧ ("." ++ fileExtension f.name) ∉ allowedExtensions
        · rw [if_pos hcond]
        · rw [if_neg hcond] at hv
          exact absurd hv (by simp)
    · intro hv
      simp only [validNewFile] at hv
      simp only [handleFileChange]
      by_cases h0 : f.size = 0
      · rw [if_pos h0] at hv
        exact absurd hv (by simp)
      · rw [if_neg h0] at hv ⊢
        by_cases hcond : f.type ∉ allowedTypes
            ∧ ("." ++ fileExtension f.name) ∉ allowedExtensions
        · rw [if_pos hcond] at hv
          exact absurd hv (by simp)
        · rw [if_neg hcond]

/-- Witness for C8: a rejected file (disallowed type and extension)
leaves a fully-populated state unchanged except for the message. -/
theorem c8_witness :
    validNewFile (some ⟨"malware.exe", "application/x-msdownload", [1, 2]⟩) = false ∧
    handleFileChange (some ⟨"malware.exe", "application/x-msdownload", [1, 2]⟩)
        ⟨some ⟨"a.txt", "text/plain", [1]⟩, none, "old message", "http://dl", none, 42, true,
          false, true, true⟩
      = { (⟨some ⟨"a.txt", "text/plain", [1]⟩, none, "old message", "http://dl", none, 42, true,
          false, true, true⟩ : AppState) with
          message := (handleFileChange (some ⟨"malware.exe", "application/x-msdownload", [1, 2]⟩)
            ⟨some ⟨"a.txt", "text/plain", [1]⟩, none, "old message", "http://dl", none, 42, true,
              false, true, true⟩).message } :=
  ⟨by decide, (c8_filechange_atomic _ _).1 (by decide)⟩

/-- C9: a selected non-empty file is accepted iff its MIME type is in
the allowed-types list or its lowercased filename extension is in the
allowed-extensions list: the rejection condition requires both
membership tests to fail. -/
theorem c9_accept_iff (f : JsFile) (h : f.content ≠ []) :
    validNewFile (some f) = true ↔
      (f.type ∈ allowedTypes ∨ ("." ++ fileExtension f.name) ∈ allowedExtensions) := by
  simp only [validNewFile]
  have h0 : ¬ f.size = 0 := by
    simp only [JsFile.size]
    intro hlen
    exact h (List.eq_nil_of_length_eq_zero hlen)
  rw [if_neg h0]
  by_cases hcond : f.type ∉ allowedTypes ∧ ("." ++ fileExtension f.name) ∉ allowedExtensions
  · rw [if_pos hcond]
    constructor
    · intro hfalse
      exact absurd hfalse (by simp)
    · intro hor
      rcases hor with h1 | h1
      · exact absurd h1 hcond.1
      · exact absurd h1 hcond.2
  · rw [if_neg hcond]
    constructor
    · intro _
      by_contra hno
      push_neg at hno
      exact hcond ⟨hno.1, hno.2⟩
    · intro _
      rfl

/-- Witness for C9: a file with an allowed (uppercase) extension but an
unlisted MIME type is accepted. -/
theorem c9_witness :
    (⟨"notes.TXT", "application/x-unknown", [1]⟩ : JsFile).content ≠ [] ∧
    validNewFile (some ⟨"notes.TXT", "application/x-unknown", [1]⟩) = true :=
  ⟨by decide, (c9_accept_iff ⟨"notes.TXT", "application/x-unknown", [1]⟩ (by decide)).mpr
    (Or.inr (by decide))⟩

theorem replaceFirst_removeOnce : ∀ s pat : List Char,
    replaceFirstList s pat [] = removeSubstringOnce s pat
  | [], pat => by
    simp only [replaceFirstList, removeSubstringOnce, firstOccurrence?]
    by_cases h : pat = []
    · simp [h]
    · simp [h]
  | c :: cs, pat => by
    simp only [replaceFirstList, removeSubstringOnce, firstOccurrence?]
    by_cases h : pat <+: c :: cs
    · simp [h]
    · simp only [if_neg h]
      have ih := replaceFirst_removeOnce cs pat
      unfold removeSubstringOnce at ih
      cases hocc : firstOccurrence? pat cs with
      | none =>
        rw [hocc] at ih
        simp [hocc, ih]
      | some i =>
        rw [hocc] at ih
        show c :: replaceFirstList cs pat []
          = (c :: cs).take (i + 1) ++ (c :: cs).drop (i + 1 + pat.length)
        rw [ih]
        have h1 : (c :: cs).take (i + 1) = c :: cs.take i := List.take_succ_cons ..
        have h2 : (c :: cs).drop (i + 1 + pat.length) = cs.drop (i + pat.length) := by
          have h3 : i + 1 + pat.length = (i + pat.length) + 1 := by omega
          rw [h3]
          exact List.drop_succ_cons ..
        rw [h1, h2]
        rfl

/-- C10: for every compressed file selected for decompression (whose
name must end in ".zip"), the suggested filename of the downloaded
reconstructed file equals the compressed file's name with the (first
occurrence of the) substring "_compressed.zip" removed. -/
theorem c10_download_name (name : String) (_h : strEndsWith name ".zip" = true) :
    decompressDownloadName name = nameWithMarkerRemoved name := by
  unfold decompressDownloadName jsReplaceFirst nameWithMarkerRemoved
  have hemp : ("" : String).data = [] := rfl
  rw [hemp, replaceFirst_removeOnce]

/-- Witness for C10 on the worked example: "report.pdf_compressed.zip"
yields "report.pdf". -/
theorem c10_witness :
    strEndsWith "report.pdf_compressed.zip" ".zip" = true ∧
    decompressDownloadName "report.pdf_compressed.zip"
      = nameWithMarkerRemoved "report.pdf_compressed.zip" ∧
    decompressDownloadName "report.pdf_compressed.zip" = "report.pdf" :=
  ⟨by decide, c10_download_name _ (by decide), by decide⟩

end SmartCompress
